import Mathlib

/-!
Verification of the docker-ci-deploy tag-generation core
(`docker_ci_deploy/__main__.py`).

The Python module parses Docker image references with anchored regexes
(`REFERENCE_REGEX`, `ANCHORED_NAME_REGEX`), relocates image names to a
registry (`RegistryTagger`), expands version information into tags
(`VersionTagger`, `generate_semver_versions`) and drives `docker tag` /
`docker push` subprocesses (`DockerRunner`, `main`).

This development shallowly embeds those functions.  The regular
expressions are embedded as executable decision procedures over
`List Char`; each decision procedure is an operational characterisation
of the corresponding anchored Python regex, derived in the comments next
to it (the backtracking engine and the characterisation agree on full
anchored matches, including the capture groups used by the code).
-/

/-! ### Character classes

Python's `\w` on a `str` also accepts non-ASCII word characters; the
reference grammar this module transcribes (docker/distribution, Go
`regexp` where `\w` is `[0-9A-Za-z_]`) is ASCII, and the model restricts
attention to the ASCII range throughout. -/

def isDigitC (c : Char) : Bool := decide ('0' ≤ c ∧ c ≤ '9')

def isLowerC (c : Char) : Bool := decide ('a' ≤ c ∧ c ≤ 'z')

def isUpperC (c : Char) : Bool := decide ('A' ≤ c ∧ c ≤ 'Z')

def isAlnumC (c : Char) : Bool := isLowerC c || isUpperC c || isDigitC c

def isLowerAlnumC (c : Char) : Bool := isLowerC c || isDigitC c

def isWordC (c : Char) : Bool := isAlnumC c || c == '_'

/-! ### List-splitting helpers

`splitFirst sep l` splits `l` at the first occurrence of `sep`
(`none` when `sep` does not occur); `splitLast` at the last occurrence;
`splitAll` returns the `sep`-separated pieces (like Python's
`str.split`). -/

def splitFirst (sep : Char) : List Char → Option (List Char × List Char)
  | [] => none
  | c :: rest =>
    if c = sep then some ([], rest)
    else
      match splitFirst sep rest with
      | none => none
      | some (a, b) => some (c :: a, b)

def splitLast (sep : Char) (l : List Char) : Option (List Char × List Char) :=
  match splitFirst sep l.reverse with
  | none => none
  | some (a, b) => some (b.reverse, a.reverse)

def splitAll (sep : Char) : List Char → List (List Char)
  | [] => [[]]
  | c :: rest =>
    match splitAll sep rest with
    | [] => [[]]
    | p :: ps => if c = sep then [] :: p :: ps else (c :: p) :: ps

/-- Adjacent-pair check: `chainPairs p l` holds when `p a b` holds for
every pair of adjacent elements `a, b` of `l`. -/
def chainPairs (p : Char → Char → Bool) : List Char → Bool
  | a :: b :: rest => p a b && chainPairs p (b :: rest)
  | _ => true

def optCharHolds (p : Char → Bool) : Option Char → Bool
  | none => false
  | some c => p c

/-- Boolean test that `p` is a prefix of `s` (Python `str.startswith`). -/
def charsPrefix : List Char → List Char → Bool
  | [], _ => true
  | _ :: _, [] => false
  | a :: as, b :: bs => a == b && charsPrefix as bs

/-! ### The reference grammar

Transcribed from the module's regexes (themselves transcribed from
docker/distribution v2.6.0-rc.2 `reference/regexp.go`):

  `HOSTNAME_COMPONENT_PATTERN = (?:[a-zA-Z0-9]|[a-zA-Z0-9][a-zA-Z0-9-]*[a-zA-Z0-9])`
  `HOSTNAME_PATTERN  = HC (\.HC)* (:[0-9]+)?`
  `NAME_COMPONENT_PATTERN = [a-z0-9]+(?:(?:(?:[._]|__|[-]*)[a-z0-9]+)+)?`
  `NAME_PATTERN      = (HOSTNAME/)? NC (/NC)*`
  `TAG_PATTERN       = [\w][\w.-]\x7b0,127\x7d`
-/

/-- Language of `HOSTNAME_COMPONENT_PATTERN`: nonempty strings of
alphanumerics and dashes that start and end with an alphanumeric (a
single alphanumeric is the first regex alternative). -/
def hostname_component_match (l : List Char) : Bool :=
  optCharHolds isAlnumC l.head? && optCharHolds isAlnumC l.getLast? &&
    l.all (fun c => isAlnumC c || c == '-')

def hostChar (c : Char) : Bool := isAlnumC c || c == '-' || c == '.'

/-- Adjacency discipline of `HC (\.HC)*`: every `.` is surrounded by
alphanumerics (each component starts and ends with an alphanumeric and
`..` is impossible). -/
def hostPairOk (a b : Char) : Bool :=
  if b == '.' then isAlnumC a
  else if a == '.' then isAlnumC b
  else true

/-- Language of `HC (\.HC)*` (the hostname with the optional port
removed).  Characterisation of the regex: the string is nonempty, starts
and ends with an alphanumeric, uses only alphanumerics, `-` and `.`, and
every `.` is adjacent to alphanumerics on both sides; this holds exactly
when the `.`-separated components each match `HC`. -/
def hostname_body_match (l : List Char) : Bool :=
  optCharHolds isAlnumC l.head? && optCharHolds isAlnumC l.getLast? &&
    l.all hostChar && chainPairs hostPairOk l

/-- Language of `HOSTNAME_PATTERN`.  Neither `HC` nor the port may
contain `:`, so an anchored match forces the split at the first `:`
(when present) with a nonempty all-digit port after it. -/
def hostname_match (l : List Char) : Bool :=
  match splitFirst ':' l with
  | none => hostname_body_match l
  | some (h, p) => hostname_body_match h && !p.isEmpty && p.all isDigitC

def ncChar (c : Char) : Bool := isLowerAlnumC c || c == '.' || c == '_' || c == '-'

/-- Adjacency discipline of `NAME_COMPONENT_PATTERN`: the separators
between the `[a-z0-9]+` runs are exactly `.`, `_`, `__` or a run of `-`.
So a separator character may be followed by a non-alphanumeric only when
both are `-` or both are `_` (the `___` case is excluded separately). -/
def ncPairOk (a b : Char) : Bool :=
  if isLowerAlnumC b then true
  else if a == '.' then false
  else if a == '-' then b == '-'
  else if a == '_' then b == '_'
  else true

def noTripleUnderscore : List Char → Bool
  | '_' :: '_' :: '_' :: _ => false
  | _ :: rest => noTripleUnderscore rest
  | [] => true

/-- Language of `NAME_COMPONENT_PATTERN`.  Characterisation of the
regex: nonempty, starts and ends with `[a-z0-9]`, uses only `[a-z0-9._-]`,
satisfies the separator adjacency discipline, and has no `___`
substring.  (Checked exhaustively against Python `re` on all strings of
length at most 5 over a covering alphabet.) -/
def name_component_match (l : List Char) : Bool :=
  optCharHolds isLowerAlnumC l.head? && optCharHolds isLowerAlnumC l.getLast? &&
    l.all ncChar && chainPairs ncPairOk l && noTripleUnderscore l

/-- Language of `NC (/NC)*` (the name with any hostname removed): every
`/`-separated piece matches `NAME_COMPONENT_PATTERN`. -/
def name_path_match (l : List Char) : Bool :=
  (splitAll '/' l).all name_component_match

/-- Model of `ANCHORED_NAME_REGEX`, with its two capture groups
`(hostname?, remainder)`.  The hostname production cannot contain `/`,
so the backtracking engine can complete the optional `(HOSTNAME/)` group
only by matching the whole segment before the first `/`; it tries that
first and falls back to matching the entire subject as `NC (/NC)*`. -/
def anchored_name_groups (l : List Char) : Option (Option (List Char) × List Char) :=
  match splitFirst '/' l with
  | some (pre, post) =>
    if hostname_match pre && name_path_match post then some (some pre, post)
    else if name_path_match l then some (none, l) else none
  | none => if name_path_match l then some (none, l) else none

/-- Whether `NAME_PATTERN` (equally `ANCHORED_NAME_REGEX`) matches. -/
def name_match (l : List Char) : Bool :=
  (anchored_name_groups l).isSome

def tagChar (c : Char) : Bool := isWordC c || c == '.' || c == '-'

/-- Language of `TAG_PATTERN`: a word character followed by at most 127
characters from `[\w.-]`. -/
def tag_match (l : List Char) : Bool :=
  match l with
  | [] => false
  | c :: rest => isWordC c && decide (rest.length ≤ 127) && rest.all tagChar

def digestAlgChar (c : Char) : Bool := isAlnumC c || c == '-' || c == '_' || c == '+' || c == '.'

def digestAlgPairOk (a b : Char) : Bool :=
  if digestAlgChar b && !isAlnumC b then !(digestAlgChar a && !isAlnumC a)
  else if digestAlgChar a && !isAlnumC a then isLowerC b || isUpperC b
  else true

/-- Language of the algorithm part of `DIGEST_PATTERN`:
`[A-Za-z][A-Za-z0-9]*(?:[-_+.][A-Za-z][A-Za-z0-9]*)*` — components of
alphanumerics starting with a letter, joined by single separators from
`[-_+.]`, each separator followed by a letter. -/
def digest_alg_match (l : List Char) : Bool :=
  optCharHolds (fun c => isLowerC c || isUpperC c) l.head? &&
    optCharHolds isAlnumC l.getLast? &&
    l.all digestAlgChar && chainPairs digestAlgPairOk l

/-- Model of `DIGEST_PATTERN`.  Python's `re` has no POSIX classes, so
the source's `[[:xdigit:]]` is the literal character class
`[\x7b'[',':','x','d','i','g','t'\x7d]` followed by a literal `]`
repeated 32 or more times; the model reproduces that behaviour (checked
against Python `re`). -/
def digest_match (l : List Char) : Bool :=
  match splitFirst ':' l with
  | none => false
  | some (alg, rest) =>
    digest_alg_match alg &&
      (match rest with
       | [] => false
       | c :: rs =>
         (c == '[' || c == ':' || c == 'x' || c == 'd' || c == 'i' || c == 'g' || c == 't') &&
           decide (32 ≤ rs.length) && rs.all (fun x => x == ']'))

/-- The name/tag part of `REFERENCE_REGEX`, returning capture groups 1
and 2.  Neither production may contain `@`; a tag contains neither `:`
nor `/`, and a name containing `:` continues with digits and a `/` after
it, so an anchored full match (if any) is unique: either the whole
subject is a name, or it splits at its last `:` into a valid name and a
valid tag.  The two cases are mutually exclusive. -/
def name_tag_split (l : List Char) : Option (List Char × Option (List Char)) :=
  match splitLast ':' l with
  | none => if name_match l then some (l, none) else none
  | some (n, t) =>
    if name_match n && tag_match t then some (n, some t)
    else if name_match l then some (l, none) else none

/-- Model of `REFERENCE_REGEX`, returning capture groups 1 and 2 (the
digest group 3 is validated and discarded, as in `split_image_tag`).
`@` occurs in no other production, so a match places the digest exactly
after the first `@`. -/
def reference_groups (l : List Char) : Option (List Char × Option (List Char)) :=
  match splitFirst '@' l with
  | some (nt, d) => if digest_match d then name_tag_split nt else none
  | none => name_tag_split l

/-! ### `split_image_tag` / `join_image_tag` (lines 50–66) -/

/-- `split_image_tag`: split an image tag into name and tag parts via
`REFERENCE_REGEX`; `none` models the raised `ValueError`. -/
def split_image_tag (image_tag : String) : Option (String × Option String) :=
  match reference_groups image_tag.data with
  | none => none
  | some (n, t) => some (String.mk n, t.map String.mk)

/-- `join_image_tag`: join an image name and tag.  Python's `if not
tag:` treats both `None` and the empty string as "no tag". -/
def join_image_tag (image : String) (tag : Option String) : String :=
  match tag with
  | none => image
  | some t => if t = "" then image else image ++ ":" ++ t

/-! ### `RegistryTagger` (lines 69–94) -/

/-- `_join_image_registry`: `'/'.join((registry, image))`. -/
def _join_image_registry (image registry : String) : String :=
  registry ++ "/" ++ image

/-- `_strip_image_registry`: group 2 of `ANCHORED_NAME_REGEX` applied to
the image name; `none` models the raised `ValueError`. -/
def _strip_image_registry (image : String) : Option String :=
  match anchored_name_groups image.data with
  | none => none
  | some g => some (String.mk g.2)

structure RegistryTagger where
  _registry : String

/-- `RegistryTagger.generate_tag`: append the registry; if the result no
longer matches the name grammar, strip the existing registry first. -/
def RegistryTagger.generate_tag (rt : RegistryTagger) (image : String) : Option String :=
  let joined_image := _join_image_registry image rt._registry
  if name_match joined_image.data then some joined_image
  else (_strip_image_registry image).map (fun s => _join_image_registry s rt._registry)

/-- The registry dispatch of `generate_tags` (lines 233–236): with no
registry configured the image name is passed through unchanged. -/
def registry_relocate (registry : Option String) (image : String) : Option String :=
  match registry with
  | none => some image
  | some r => (RegistryTagger.mk r).generate_tag image

/-! ### `VersionTagger` (lines 97–170) -/

/-- `_join_tag_parts`, at the arity used by every call site:
`'-'.join((a, b))`. -/
def _join_tag_parts (a b : String) : String :=
  a ++ "-" ++ b

/-- Python truthiness of an optional string: `None` and `''` are falsy. -/
def pyTruthy : Option String → Bool
  | none => false
  | some s => decide (s ≠ "")

/-- The scanning loop of `_strip_tag_version` (lines 159–165). -/
def _strip_tag_version_scan (tag : String) : List String → String
  | [] => tag
  | version :: rest =>
    if tag = version then ""
    else if charsPrefix (version ++ "-").data tag.data then
      String.mk (tag.data.drop (version.length + 1))
    else _strip_tag_version_scan tag rest

/-- `_strip_tag_version` (lines 149–165): strip the version from the
front of the tag if present; versions are scanned in order. -/
def _strip_tag_version (tag : Option String) (semver_versions : List String) : Option String :=
  match tag with
  | none => none
  | some t => some (_strip_tag_version_scan t semver_versions)

structure VersionTagger where
  _prefixes : List String
  _suffix : Option String
  _latest : Bool
  _latest_tag : String

/-- `VersionTagger.__init__` (lines 98–117). -/
def VersionTagger.init (versions : List String) (suffix : Option String := none)
    (latest : Bool := false) : VersionTagger :=
  { _prefixes :=
      match suffix with
      | some s => if versions.isEmpty then [s] else versions.map (fun v => _join_tag_parts v s)
      | none => versions
    _suffix := suffix
    _latest := latest
    _latest_tag :=
      match suffix with
      | some s => s
      | none => "latest" }

/-- `VersionTagger.generate_tags` (lines 119–146). -/
def VersionTagger.generate_tags (vt : VersionTagger) (tag : Option String) : List String :=
  let stripped_tag := _strip_tag_version tag vt._prefixes
  let versioned_tags :=
    if pyTruthy stripped_tag = true ∧ stripped_tag ≠ some "latest" then
      vt._prefixes.map (fun p => _join_tag_parts p (stripped_tag.getD ""))
    else vt._prefixes
  if vt._latest then
    versioned_tags ++
      [if pyTruthy stripped_tag = true then
        match vt._suffix with
        | some s => if s = "" then stripped_tag.getD "" else _join_tag_parts s (stripped_tag.getD "")
        | none => stripped_tag.getD ""
      else vt._latest_tag]
  else versioned_tags

/-! ### `generate_semver_versions` (lines 173–203) -/

/-- One step of `re.sub(r'[.-]?\w+$', r'', remaining_version)`: the
leftmost match of this end-anchored pattern is the maximal trailing run
of word characters together with one preceding `.` or `-` when present;
with no trailing word character there is no match and the string is
returned unchanged.  (Checked exhaustively against Python `re`.) -/
def stripVersionComponent (s : String) : String :=
  let r := s.data.reverse
  let w := r.takeWhile isWordC
  if w.isEmpty then s
  else
    match r.dropWhile isWordC with
    | [] => ""
    | c :: rest2 =>
      if c = '.' ∨ c = '-' then String.mk rest2.reverse else String.mk (c :: rest2).reverse

/-- The `while remaining_version:` loop of `generate_semver_versions`
(lines 186–190), run on fuel.  Each successful substitution removes at
least one character, so `s.length + 1` fuel decides the loop; when the
substitution makes no progress on a nonempty string the Python loop
never terminates, which is modelled as `none`. -/
def subVersionsFuel : Nat → String → Option (List String)
  | 0, s => if s = "" then some [] else none
  | fuel + 1, s =>
    if s = "" then some []
    else
      let s2 := stripVersionComponent s
      if s2.length < s.length then
        match subVersionsFuel fuel s2 with
        | some rest => some (s :: rest)
        | none => none
      else none

def sub_versions_of (version : String) : Option (List String) :=
  subVersionsFuel (version.length + 1) version

/-- `generate_semver_versions` (lines 173–203).  The outer `Option`
models nontermination of the stripping loop; `Except.error` models the
raised `ValueError` (its Python message also interpolates the requested
and actual precisions). -/
def generate_semver_versions (version : String) (precision : Nat := 1)
    (zero : Bool := false) : Option (Except String (List String)) :=
  match sub_versions_of version with
  | none => none
  | some sub_versions =>
    if decide (sub_versions.length < precision) then
      some (Except.error "InvalidPrecisionError")
    else
      let sv1 :=
        if decide (1 < precision) then sub_versions.take (sub_versions.length - (precision - 1))
        else sub_versions
      let sv2 :=
        if !zero && decide (1 < sv1.length) && (sv1.getLast? == some "0") then sv1.dropLast
        else sv1
      some (Except.ok sv2)

/-! ### `DockerRunner` and the orchestration loops of `main`
(lines 291–327 and 479–493), outside dry-run mode. -/

/-- Subprocess invocations issued by `DockerRunner.docker_tag`: a
self-rename is suppressed entirely (only a verbose log line is
emitted). -/
def docker_tag_calls (executable in_tag out_tag : String) : List (List String) :=
  if in_tag = out_tag then [] else [[executable, "tag", in_tag, out_tag]]

/-- Subprocess invocations issued by `DockerRunner.docker_push`. -/
def docker_push_calls (executable tag : String) : List (List String) :=
  [[executable, "push", tag]]

/-- The tag-then-push loops at the end of `main` (lines 486–493), as the
sequence of subprocess invocations they issue for a computed
`tag_map`. -/
def main_subprocess_calls (executable : String)
    (tag_map : List (String × List String)) : List (List String) :=
  (tag_map.flatMap fun p => p.2.flatMap fun push_tag => docker_tag_calls executable p.1 push_tag) ++
    (tag_map.flatMap fun p => p.2.flatMap fun push_tag => docker_push_calls executable push_tag)

/-! ### Login rendering (modelled from the spec) -/

/-- Space-joining of command arguments (`' '.join(args)`). -/
def joinSpaces : List String → String
  | [] => ""
  | [a] => a
  | a :: b :: rest => a ++ " " ++ joinSpaces (b :: rest)

/-- Modelled from the spec: the `login` operation of the external
image-tool invoker is absent from the sources (only its tests remain).
Per the spec, any logged or raised representation of a login invocation
replaces the password with the fixed placeholder `<password>`; the
argument vector is the executable followed by
`login --username <user> --password <placeholder>` and the optional
registry. -/
def login_obfuscated_args (executable username : String) (registry : Option String) : List String :=
  [executable, "login", "--username", username, "--password", "<password>"] ++
    (match registry with
     | some r => [r]
     | none => [])

/-- Modelled from the spec: the single line a dry run emits for a login
invocation — the fully-assembled command joined by single spaces, with
the password placeholder substituted. -/
def login_dry_run_line (executable username _password : String)
    (registry : Option String) : String :=
  joinSpaces (login_obfuscated_args executable username registry)

/-- Modelled from the spec: the representation carried by the error
raised when a login invocation fails — it renders the same sanitised
command. -/
def login_error_repr (executable username password : String) (registry : Option String)
    (exitCode : Nat) : String :=
  "Command " ++ login_dry_run_line executable username password registry ++
    " returned non-zero exit status " ++ toString exitCode

/-- Substring relation on strings (Python's `in`). -/
def strContains (needle hay : String) : Prop :=
  ∃ a b, hay.data = a ++ needle.data ++ b

/-! ## Lemmas about the splitting helpers -/

theorem splitFirst_eq_none {sep : Char} : ∀ {l : List Char}, sep ∉ l → splitFirst sep l = none
  | [], _ => rfl
  | c :: rest, h => by
    have hc : ¬c = sep := fun hcs => h (hcs ▸ List.mem_cons_self c rest)
    have hr : sep ∉ rest := fun hm => h (List.mem_cons_of_mem c hm)
    simp [splitFirst, hc, splitFirst_eq_none hr]

theorem splitFirst_eq_some {sep : Char} :
    ∀ {l x y : List Char}, splitFirst sep l = some (x, y) → l = x ++ sep :: y ∧ sep ∉ x
  | [], x, y, h => by simp [splitFirst] at h
  | c :: rest, x, y, h => by
    by_cases hc : c = sep
    · simp [splitFirst, hc] at h
      obtain ⟨rfl, rfl⟩ := h
      simp [hc]
    · simp only [splitFirst, if_neg hc] at h
      cases hrec : splitFirst sep rest with
      | none => rw [hrec] at h; simp at h
      | some q =>
        obtain ⟨a, b⟩ := q
        rw [hrec] at h
        simp at h
        obtain ⟨rfl, rfl⟩ := h
        obtain ⟨hl, hna⟩ := splitFirst_eq_some hrec
        constructor
        · simp [hl]
        · intro hm
          rcases List.mem_cons.mp hm with h1 | h2
          · exact hc h1.symm
          · exact hna h2

theorem splitFirst_prepend {sep : Char} :
    ∀ {a : List Char}, ∀ l : List Char, sep ∉ a →
      splitFirst sep (a ++ l) = (splitFirst sep l).map (fun q => (a ++ q.1, q.2))
  | [], l, _ => by
    cases h : splitFirst sep l with
    | none => simp [h]
    | some q => simp [h]
  | c :: as, l, h => by
    have hc : ¬c = sep := fun hcs => h (hcs ▸ List.mem_cons_self c as)
    have ha : sep ∉ as := fun hm => h (List.mem_cons_of_mem c hm)
    simp only [List.cons_append, splitFirst, if_neg hc, List.append_eq]
    rw [splitFirst_prepend l ha]
    cases splitFirst sep l with
    | none => simp
    | some q => simp

theorem splitFirst_append {sep : Char} {a : List Char} (b : List Char) (h : sep ∉ a) :
    splitFirst sep (a ++ sep :: b) = some (a, b) := by
  rw [splitFirst_prepend (sep :: b) h]
  simp [splitFirst]

theorem splitLast_eq_none {sep : Char} {l : List Char} (h : sep ∉ l) : splitLast sep l = none := by
  have : sep ∉ l.reverse := fun hm => h (List.mem_reverse.mp hm)
  simp [splitLast, splitFirst_eq_none this]

theorem splitLast_eq_some {sep : Char} {l x y : List Char} (h : splitLast sep l = some (x, y)) :
    l = x ++ sep :: y ∧ sep ∉ y := by
  unfold splitLast at h
  cases hr : splitFirst sep l.reverse with
  | none => rw [hr] at h; simp at h
  | some q =>
    obtain ⟨a, b⟩ := q
    rw [hr] at h
    simp at h
    obtain ⟨rfl, rfl⟩ := h
    obtain ⟨hl, hna⟩ := splitFirst_eq_some hr
    constructor
    · have := congrArg List.reverse hl
      simpa using this
    · intro hm
      exact hna (by simpa using hm)

theorem splitLast_append {sep : Char} {b : List Char} (a : List Char) (h : sep ∉ b) :
    splitLast sep (a ++ sep :: b) = some (a, b) := by
  have hrev : (a ++ sep :: b).reverse = b.reverse ++ sep :: a.reverse := by
    simp
  have hnb : sep ∉ b.reverse := fun hm => h (List.mem_reverse.mp hm)
  simp [splitLast, hrev, splitFirst_append a.reverse hnb]

theorem splitLast_postpend {sep : Char} {b : List Char} (a : List Char) (h : sep ∉ b) :
    splitLast sep (a ++ b) = (splitLast sep a).map (fun q => (q.1, q.2 ++ b)) := by
  have hnb : sep ∉ b.reverse := fun hm => h (List.mem_reverse.mp hm)
  have hrev : (a ++ b).reverse = b.reverse ++ a.reverse := by simp
  unfold splitLast
  rw [hrev, splitFirst_prepend a.reverse hnb]
  cases splitFirst sep a.reverse with
  | none => simp
  | some q => simp

theorem splitAll_ne_nil (sep : Char) : ∀ l : List Char, splitAll sep l ≠ []
  | [] => by simp [splitAll]
  | c :: rest => by
    have := splitAll_ne_nil sep rest
    cases hr : splitAll sep rest with
    | nil => exact absurd hr this
    | cons p ps =>
      by_cases hc : c = sep <;> simp [splitAll, hr, hc]

theorem splitAll_chars {sep c : Char} :
    ∀ {l : List Char}, c ∈ l → c = sep ∨ ∃ p, p ∈ splitAll sep l ∧ c ∈ p
  | [], h => by simp at h
  | a :: rest, h => by
    cases hr : splitAll sep rest with
    | nil => exact absurd hr (splitAll_ne_nil sep rest)
    | cons p ps =>
      rcases List.mem_cons.mp h with rfl | hrest
      · by_cases hc : c = sep
        · exact Or.inl hc
        · refine Or.inr ⟨c :: p, ?_, List.mem_cons_self c p⟩
          simp [splitAll, hr, hc]
      · rcases splitAll_chars hrest with hcs | ⟨q, hq, hcq⟩
        · exact Or.inl hcs
        · by_cases hc : a = sep
          · refine Or.inr ⟨q, ?_, hcq⟩
            simp only [splitAll, hr, if_pos hc]
            exact List.mem_cons_of_mem _ (hr ▸ hq)
          · rcases List.mem_cons.mp (hr ▸ hq) with rfl | hq2
            · refine Or.inr ⟨a :: q, ?_, List.mem_cons_of_mem a hcq⟩
              simp [splitAll, hr, hc]
            · refine Or.inr ⟨q, ?_, hcq⟩
              simp [splitAll, hr, hc, hq2]

/-! ## Alphabet lemmas for the grammar productions -/

theorem name_component_chars {l : List Char} (h : name_component_match l = true) :
    ∀ c ∈ l, ncChar c = true := by
  unfold name_component_match at h
  simp only [Bool.and_eq_true, List.all_eq_true] at h
  exact h.1.1.2

theorem name_path_chars {l : List Char} (h : name_path_match l = true) :
    ∀ c ∈ l, ncChar c = true ∨ c = '/' := by
  intro c hc
  unfold name_path_match at h
  simp only [List.all_eq_true] at h
  rcases splitAll_chars hc with hcs | ⟨p, hp, hcp⟩
  · exact Or.inr hcs
  · exact Or.inl (name_component_chars (h p hp) c hcp)

theorem isAlnumC_of_isDigitC {c : Char} (h : isDigitC c = true) : isAlnumC c = true := by
  simp [isAlnumC, h]

theorem hostname_body_chars {l : List Char} (h : hostname_body_match l = true) :
    ∀ c ∈ l, hostChar c = true := by
  unfold hostname_body_match at h
  simp only [Bool.and_eq_true, List.all_eq_true] at h
  exact h.1.2

theorem hostname_match_split_none {l : List Char} (hs : splitFirst ':' l = none) :
    hostname_match l = hostname_body_match l := by
  unfold hostname_match
  rw [hs]

theorem hostname_match_split_some {l h p : List Char} (hs : splitFirst ':' l = some (h, p)) :
    hostname_match l = (hostname_body_match h && !p.isEmpty && p.all isDigitC) := by
  unfold hostname_match
  rw [hs]

theorem hostname_chars {l : List Char} (h : hostname_match l = true) :
    ∀ c ∈ l, hostChar c = true ∨ c = ':' := by
  intro c hc
  cases hs : splitFirst ':' l with
  | none =>
    rw [hostname_match_split_none hs] at h
    exact Or.inl (hostname_body_chars h c hc)
  | some q =>
    obtain ⟨hp, pp⟩ := q
    rw [hostname_match_split_some hs] at h
    simp only [Bool.and_eq_true, List.all_eq_true] at h
    obtain ⟨hl, -⟩ := splitFirst_eq_some hs
    subst hl
    rcases List.mem_append.mp hc with hch | hct
    · exact Or.inl (hostname_body_chars h.1.1 c hch)
    · rcases List.mem_cons.mp hct with rfl | hcp
      · exact Or.inr rfl
      · exact Or.inl (by simp [hostChar, isAlnumC_of_isDigitC (h.2 c hcp)])

theorem anchored_eq_of_split_none {l : List Char} (hs : splitFirst '/' l = none) :
    anchored_name_groups l = if name_path_match l then some (none, l) else none := by
  unfold anchored_name_groups
  rw [hs]

theorem anchored_eq_of_split_some {l pre post : List Char}
    (hs : splitFirst '/' l = some (pre, post)) :
    anchored_name_groups l =
      if hostname_match pre && name_path_match post then some (some pre, post)
      else if name_path_match l then some (none, l) else none := by
  unfold anchored_name_groups
  rw [hs]

theorem name_match_cases {l : List Char} (h : name_match l = true) :
    name_path_match l = true ∨
      ∃ pre post, l = pre ++ '/' :: post ∧ hostname_match pre = true ∧
        name_path_match post = true := by
  unfold name_match at h
  cases hs : splitFirst '/' l with
  | none =>
    rw [anchored_eq_of_split_none hs] at h
    by_cases hp : name_path_match l = true
    · exact Or.inl hp
    · simp [hp] at h
  | some q =>
    obtain ⟨pre, post⟩ := q
    rw [anchored_eq_of_split_some hs] at h
    by_cases hcond : (hostname_match pre && name_path_match post) = true
    · simp only [Bool.and_eq_true] at hcond
      obtain ⟨hl, -⟩ := splitFirst_eq_some hs
      exact Or.inr ⟨pre, post, hl, hcond.1, hcond.2⟩
    · rw [if_neg hcond] at h
      by_cases hp : name_path_match l = true
      · exact Or.inl hp
      · simp [hp] at h

theorem name_no_at {l : List Char} (h : name_match l = true) : '@' ∉ l := by
  intro hmem
  rcases name_match_cases h with hp | ⟨pre, post, rfl, hpre, hpost⟩
  · rcases name_path_chars hp _ hmem with hnc | hsl
    · exact absurd hnc (by decide)
    · exact absurd hsl (by decide)
  · rcases List.mem_append.mp hmem with hca | hcb
    · rcases hostname_chars hpre _ hca with hhc | hcc
      · exact absurd hhc (by decide)
      · exact absurd hcc (by decide)
    · rcases List.mem_cons.mp hcb with hsl | hcp
      · exact absurd hsl (by decide)
      · rcases name_path_chars hpost _ hcp with hnc | hsl
        · exact absurd hnc (by decide)
        · exact absurd hsl (by decide)

theorem tag_chars {l : List Char} (h : tag_match l = true) : ∀ c ∈ l, tagChar c = true := by
  unfold tag_match at h
  cases l with
  | nil => simp at h
  | cons c rest =>
    simp only [Bool.and_eq_true, List.all_eq_true] at h
    intro x hx
    rcases List.mem_cons.mp hx with rfl | hxr
    · simp [tagChar, h.1.1]
    · exact h.2 x hxr

theorem tag_not_match_of_slash {l : List Char} (h : '/' ∈ l) : tag_match l = false := by
  cases hm : tag_match l
  · rfl
  · exact absurd (tag_chars hm _ h) (by decide)

theorem tag_no_colon {l : List Char} (h : tag_match l = true) : ':' ∉ l :=
  fun hm => absurd (tag_chars h _ hm) (by decide)

theorem tag_no_at {l : List Char} (h : tag_match l = true) : '@' ∉ l :=
  fun hm => absurd (tag_chars h _ hm) (by decide)

theorem name_path_no_colon {l : List Char} (h : name_path_match l = true) : ':' ∉ l := by
  intro hm
  rcases name_path_chars h _ hm with h1 | h2
  · exact absurd h1 (by decide)
  · exact absurd h2 (by decide)

/-- In a string matched by `NAME_PATTERN`, a `:` can only occur inside
the hostname, before the first `/`; so the segment after the last `:`
still contains a `/`. -/
theorem name_colon_structure {l : List Char} (h : name_match l = true) {x y : List Char}
    (hxy : splitLast ':' l = some (x, y)) : '/' ∈ y := by
  rcases name_match_cases h with hp | ⟨pre, post, rfl, hpre, hpost⟩
  · obtain ⟨hl, -⟩ := splitLast_eq_some hxy
    have : ':' ∈ l := by
      rw [hl]
      exact List.mem_append_right _ (List.mem_cons_self _ _)
    exact absurd this (name_path_no_colon hp)
  · have hnc : ':' ∉ '/' :: post := by
      intro hm
      rcases List.mem_cons.mp hm with h1 | h2
      · exact absurd h1 (by decide)
      · exact absurd h2 (name_path_no_colon hpost)
    rw [splitLast_postpend pre hnc] at hxy
    cases hsp : splitLast ':' pre with
    | none => rw [hsp] at hxy; simp at hxy
    | some q =>
      obtain ⟨u, w⟩ := q
      rw [hsp] at hxy
      simp at hxy
      rw [← hxy.2]
      exact List.mem_append_right _ (List.mem_cons_self _ _)

/-- The name/tag split of a bare valid name: the whole subject is the
name and there is no tag. -/
theorem name_tag_split_of_name {l : List Char} (h : name_match l = true) :
    name_tag_split l = some (l, none) := by
  unfold name_tag_split
  cases hsl : splitLast ':' l with
  | none => simp [h]
  | some q =>
    obtain ⟨n, t⟩ := q
    have ht : tag_match t = false := tag_not_match_of_slash (name_colon_structure h hsl)
    simp [ht, h]

/-- The name/tag split of a valid name joined to a valid tag recovers
both parts. -/
theorem name_tag_split_join {n t : List Char} (hn : name_match n = true)
    (ht : tag_match t = true) : name_tag_split (n ++ ':' :: t) = some (n, some t) := by
  unfold name_tag_split
  rw [splitLast_append n (tag_no_colon ht)]
  simp [hn, ht]

theorem reference_groups_of_name {l : List Char} (h : name_match l = true) :
    reference_groups l = some (l, none) := by
  unfold reference_groups
  rw [splitFirst_eq_none (name_no_at h)]
  exact name_tag_split_of_name h

theorem reference_groups_join {n t : List Char} (hn : name_match n = true)
    (ht : tag_match t = true) : reference_groups (n ++ ':' :: t) = some (n, some t) := by
  have hat : '@' ∉ n ++ ':' :: t := by
    intro hm
    rcases List.mem_append.mp hm with h1 | h2
    · exact name_no_at hn h1
    · rcases List.mem_cons.mp h2 with h3 | h4
      · exact absurd h3 (by decide)
      · exact tag_no_at ht h4
  unfold reference_groups
  rw [splitFirst_eq_none hat]
  exact name_tag_split_join hn ht

/-! ## String-level glue -/

theorem mk_data_eq : ∀ s : String, String.mk s.data = s
  | ⟨_⟩ => rfl

theorem data_append_eq : ∀ a b : String, (a ++ b).data = a.data ++ b.data
  | ⟨_⟩, ⟨_⟩ => rfl

theorem join_colon_data (name tag : String) :
    (name ++ ":" ++ tag).data = name.data ++ ':' :: tag.data := by
  rw [data_append_eq, data_append_eq]
  have hc : (":" : String).data = [':'] := rfl
  rw [hc]
  simp

theorem tag_ne_empty {t : String} (h : tag_match t.data = true) : ¬t = "" := by
  intro he
  rw [he] at h
  exact absurd h (by decide)

/-! ## Claim C7: parse/join round trip -/

/-- C7: for every name and tag valid per the reference grammar (the tag
being present and hence nonempty), `split_image_tag (join_image_tag name
(some tag))` returns exactly `(name, tag)`; and for every valid bare
name, `split_image_tag name` returns `(name, absent)`. -/
theorem split_join_round_trip (name tag : String)
    (hn : name_match name.data = true) (ht : tag_match tag.data = true) :
    split_image_tag (join_image_tag name (some tag)) = some (name, some tag) ∧
      split_image_tag name = some (name, none) := by
  constructor
  · have hne : ¬tag = "" := tag_ne_empty ht
    simp only [join_image_tag, split_image_tag]
    rw [if_neg hne, join_colon_data, reference_groups_join hn ht]
    simp [mk_data_eq]
  · simp only [split_image_tag]
    rw [reference_groups_of_name hn]
    simp [mk_data_eq]

theorem split_join_round_trip_witness :
    name_match ("reg.io:5000/my-app" : String).data = true ∧
      tag_match ("1.2.3-abc" : String).data = true ∧
      (split_image_tag (join_image_tag "reg.io:5000/my-app" (some "1.2.3-abc")) =
          some ("reg.io:5000/my-app", some "1.2.3-abc") ∧
        split_image_tag "reg.io:5000/my-app" = some ("reg.io:5000/my-app", none)) :=
  ⟨by decide, by decide, split_join_round_trip _ _ (by decide) (by decide)⟩

/-! ## Claim C10: the builder collapses an empty tag into "no tag" -/

/-- C10: `join_image_tag name (some "")` returns `name` unchanged,
exactly as `join_image_tag name none` does, so parsing the joined result
of a valid name with an empty tag yields `(name, absent)` rather than
`(name, "")`. -/
theorem join_empty_tag_collapse (name : String) :
    join_image_tag name (some "") = name ∧ join_image_tag name none = name ∧
      (name_match name.data = true → split_image_tag name = some (name, none)) := by
  refine ⟨by simp [join_image_tag], rfl, fun h => ?_⟩
  simp only [split_image_tag]
  rw [reference_groups_of_name h]
  simp [mk_data_eq]

theorem join_empty_tag_collapse_witness :
    name_match ("test-image" : String).data = true ∧
      split_image_tag "test-image" = some ("test-image", none) :=
  ⟨by decide, (join_empty_tag_collapse "test-image").2.2 (by decide)⟩

theorem strip_none_iff {image : String} :
    _strip_image_registry image = none ↔ name_match image.data = false := by
  unfold _strip_image_registry name_match
  cases hg : anchored_name_groups image.data <;> simp

/-! ## Claim C5: registry relocation precedence -/

/-- C5: with no registry the name passes through unchanged; with a
registry, if the candidate `registry ++ "/" ++ name` validates against
the name-only grammar it is returned as-is (nothing is stripped from
`name`), otherwise the result prepends the registry to `name` with its
leading hostname-shaped segment stripped, and `MalformedNameError`
(modelled as `none`) is raised exactly when `name` itself does not match
the name-only grammar in this fallback path. -/
theorem registry_relocation_precedence (registry image : String) :
    registry_relocate none image = some image ∧
      registry_relocate (some registry) image =
        (if name_match (registry ++ "/" ++ image).data = true then
          some (registry ++ "/" ++ image)
        else (_strip_image_registry image).map (fun s => registry ++ "/" ++ s)) ∧
      (registry_relocate (some registry) image = none ↔
        name_match (registry ++ "/" ++ image).data = false ∧
          name_match image.data = false) := by
  refine ⟨rfl, ?_, ?_⟩
  · simp only [registry_relocate, RegistryTagger.generate_tag, _join_image_registry]
  · simp only [registry_relocate, RegistryTagger.generate_tag, _join_image_registry]
    by_cases hc : name_match (registry ++ "/" ++ image).data = true
    · rw [if_pos hc]
      constructor
      · intro h
        exact absurd h (by simp)
      · rintro ⟨h1, -⟩
        rw [hc] at h1
        exact Bool.noConfusion h1
    · have hc2 : name_match (registry ++ "/" ++ image).data = false := by
        cases hx : name_match (registry ++ "/" ++ image).data
        · rfl
        · exact absurd hx hc
      rw [if_neg hc, Option.map_eq_none', strip_none_iff]
      exact ⟨fun h => ⟨hc2, h⟩, fun h => h.2⟩

/-! ## Claim C6: registry relocation is not idempotent -/

/-- C6: there are a name and a registry (here a registry host without a
port) for which relocating twice differs from relocating once: the
doubly-prefixed candidate still validates against the name-only
grammar, so the second relocation prepends the registry again. -/
theorem relocation_not_idempotent :
    ∃ (n r : String), registry_relocate (some r) n ≠ none ∧
      (registry_relocate (some r) n).bind (registry_relocate (some r)) ≠
        registry_relocate (some r) n :=
  ⟨"my-image", "registry", by decide, by decide⟩

/-! ## Claim C8: no-op rename suppression -/

/-- C8: for every (source, destination) pair processed by the
orchestrator loops, if the two references are byte-identical then no
`docker tag` subprocess is invoked for that pair, while the `docker
push` invocation for the destination is still issued. -/
theorem noop_rename_suppressed (executable : String)
    (tag_map : List (String × List String)) (image t : String) (ts : List String)
    (hmem : (image, ts) ∈ tag_map) (ht : t ∈ ts) (heq : image = t) :
    [executable, "tag", image, t] ∉ main_subprocess_calls executable tag_map ∧
      [executable, "push", t] ∈ main_subprocess_calls executable tag_map := by
  subst heq
  constructor
  · intro hmm
    unfold main_subprocess_calls at hmm
    rcases List.mem_append.mp hmm with h1 | h2
    · simp only [List.mem_flatMap] at h1
      obtain ⟨p, hp, pt, hpt, hin⟩ := h1
      unfold docker_tag_calls at hin
      by_cases he : p.1 = pt
      · rw [if_pos he] at hin
        simp at hin
      · rw [if_neg he] at hin
        simp at hin
        exact he (hin.1.symm.trans hin.2)
    · simp only [List.mem_flatMap] at h2
      obtain ⟨p, hp, pt, hpt, hin⟩ := h2
      unfold docker_push_calls at hin
      simp at hin
  · unfold main_subprocess_calls
    refine List.mem_append.mpr (Or.inr ?_)
    simp only [List.mem_flatMap]
    exact ⟨(image, ts), hmem, image, ht, by simp [docker_push_calls]⟩

theorem noop_rename_suppressed_witness :
    (("test-image", ["test-image", "registry/test-image"]) ∈
        [("test-image", ["test-image", "registry/test-image"])] ∧
      "test-image" ∈ ["test-image", "registry/test-image"]) ∧
      ["docker", "tag", "test-image", "test-image"] ∉
        main_subprocess_calls "docker" [("test-image", ["test-image", "registry/test-image"])] ∧
      ["docker", "push", "test-image"] ∈
        main_subprocess_calls "docker" [("test-image", ["test-image", "registry/test-image"])] :=
  ⟨⟨by decide, by decide⟩,
    noop_rename_suppressed "docker" [("test-image", ["test-image", "registry/test-image"])]
      "test-image" "test-image" ["test-image", "registry/test-image"]
      (by decide) (by decide) rfl⟩

/-! ## String lemmas for the version-tag proofs -/

theorem string_data_inj {a b : String} (h : a.data = b.data) : a = b := by
  cases a
  cases b
  exact congrArg String.mk h

theorem charsPrefix_self_append : ∀ (p rest : List Char), charsPrefix p (p ++ rest) = true
  | [], _ => rfl
  | a :: as, rest => by
    simp [charsPrefix, charsPrefix_self_append as rest]

theorem charsPrefix_exists :
    ∀ {p s : List Char}, charsPrefix p s = true → ∃ rest, s = p ++ rest
  | [], s, _ => ⟨s, rfl⟩
  | a :: as, [], h => by simp [charsPrefix] at h
  | a :: as, b :: bs, h => by
    simp only [charsPrefix, Bool.and_eq_true, beq_iff_eq] at h
    obtain ⟨rest, hrest⟩ := charsPrefix_exists h.2
    exact ⟨rest, by simp [h.1, hrest]⟩

theorem append_latest_ne (v : String) : ¬v ++ "-latest" = v := by
  intro h
  have h2 := congrArg String.length h
  rw [String.length_append] at h2
  have h3 : ("-latest" : String).length = 7 := rfl
  rw [h3] at h2
  omega

theorem join_dash_eq {v s : String} : _join_tag_parts v s = v ++ ("-" ++ s) := by
  apply string_data_inj
  simp [_join_tag_parts, data_append_eq]

theorem join_eq_append_latest {v s : String} (h : _join_tag_parts v s = v ++ "-latest") :
    s = "latest" := by
  rw [join_dash_eq] at h
  have hd := congrArg String.data h
  rw [data_append_eq, data_append_eq] at hd
  have hd2 : ("-" ++ s : String).data = ("-latest" : String).data :=
    List.append_cancel_left hd
  rw [data_append_eq] at hd2
  have hc : ("-" : String).data = ['-'] := rfl
  have hl : ("-latest" : String).data = '-' :: ("latest" : String).data := rfl
  rw [hc, hl] at hd2
  simp only [List.singleton_append, List.cons.injEq] at hd2
  exact string_data_inj hd2.2

/-! ## The version-strip scan for a single-version policy -/

theorem strip_scan_self (v : String) : _strip_tag_version_scan v [v] = "" := by
  unfold _strip_tag_version_scan
  rw [if_pos rfl]

theorem strip_scan_dash_x (v : String) : _strip_tag_version_scan (v ++ "-x") [v] = "x" := by
  unfold _strip_tag_version_scan
  have hne : ¬v ++ "-x" = v := by
    intro h
    have h2 := congrArg String.length h
    rw [String.length_append] at h2
    have h3 : ("-x" : String).length = 2 := rfl
    rw [h3] at h2
    omega
  rw [if_neg hne]
  have hdata : (v ++ "-x").data = (v ++ "-").data ++ ['x'] := by
    rw [data_append_eq, data_append_eq]
    have h2 : ("-x" : String).data = ['-', 'x'] := rfl
    have h3 : ("-" : String).data = ['-'] := rfl
    rw [h2, h3]
    simp
  have hpre : charsPrefix (v ++ "-").data (v ++ "-x").data = true := by
    rw [hdata]
    exact charsPrefix_self_append _ _
  rw [if_pos hpre, hdata]
  have hlen : v.length + 1 = ((v ++ "-").data).length := by
    have h3 : ("-" : String).data = ['-'] := rfl
    have h4 : v.length = v.data.length := rfl
    rw [data_append_eq, h3, h4]
    simp
  rw [hlen, List.drop_left]

theorem strip_scan_latest (v : String) (hne : ¬("latest" : String) = v) :
    _strip_tag_version_scan "latest" [v] = "latest" := by
  unfold _strip_tag_version_scan
  rw [if_neg hne]
  have hpre : charsPrefix (v ++ "-").data ("latest" : String).data = false := by
    cases hp : charsPrefix (v ++ "-").data ("latest" : String).data
    · rfl
    · obtain ⟨rest, hrest⟩ := charsPrefix_exists hp
      have hdash : '-' ∈ ("latest" : String).data := by
        rw [hrest]
        refine List.mem_append_left _ ?_
        rw [data_append_eq]
        refine List.mem_append_right _ ?_
        have h3 : ("-" : String).data = ['-'] := rfl
        rw [h3]
        exact List.mem_singleton.mpr rfl
      exact absurd hdash (by decide)
  have hpre2 : ¬charsPrefix (v ++ "-").data ("latest" : String).data = true := by
    intro h
    rw [hpre] at h
    exact Bool.noConfusion h
  rw [if_neg hpre2]
  rfl

/-! ## Claim C1: version-strip composition -/

/-- C1: with a single-version policy `[v]` (no suffix, latest disabled),
a tag equal to the version collapses to `[v]`; a tag already carrying
the version prefix is not prefixed twice; an absent tag and the literal
tag `"latest"` are treated as an empty remainder and yield `[v]`. -/
theorem version_strip_correctness (v : String) :
    (VersionTagger.init [v]).generate_tags (some v) = [v] ∧
      (VersionTagger.init [v]).generate_tags (some (v ++ "-x")) = [v ++ "-x"] ∧
      (VersionTagger.init [v]).generate_tags none = [v] ∧
      (VersionTagger.init [v]).generate_tags (some "latest") = [v] := by
  refine ⟨?_, ?_, ?_, ?_⟩
  · simp only [VersionTagger.generate_tags, VersionTagger.init, _strip_tag_version,
      strip_scan_self]
    simp [pyTruthy]
  · simp only [VersionTagger.generate_tags, VersionTagger.init, _strip_tag_version,
      strip_scan_dash_x]
    simp [pyTruthy, join_dash_eq]
  · simp [VersionTagger.generate_tags, VersionTagger.init, _strip_tag_version, pyTruthy]
  · by_cases hv : ("latest" : String) = v
    · subst hv
      decide
    · simp only [VersionTagger.generate_tags, VersionTagger.init, _strip_tag_version,
        strip_scan_latest v hv]
      simp [pyTruthy]

/-! ## Claim C2: latest-inclusion behaviour -/

/-- C2, amended: with version `"1.2.3"` and latest inclusion enabled,
composing `"foo"` yields `["1.2.3-foo", "foo"]` and composing
`"latest"` yields `["1.2.3", "latest"]`; and with latest inclusion
DISABLED, a single-version policy can never output a tag of the literal
form `v ++ "-latest"`.  (With latest inclusion enabled the original
universal claim is false — see the counterexample.) -/
theorem latest_inclusion_behaviour :
    (VersionTagger.init ["1.2.3"] none true).generate_tags (some "foo") =
        ["1.2.3-foo", "foo"] ∧
      (VersionTagger.init ["1.2.3"] none true).generate_tags (some "latest") =
        ["1.2.3", "latest"] ∧
      ∀ (v : String) (tag : Option String),
        v ++ "-latest" ∉ (VersionTagger.init [v] none false).generate_tags tag := by
  refine ⟨by decide, by decide, ?_⟩
  intro v tag hmem
  simp only [VersionTagger.generate_tags, VersionTagger.init, _strip_tag_version] at hmem
  cases tag with
  | none =>
    simp [pyTruthy] at hmem
    exact append_latest_ne v hmem
  | some t =>
    simp only [pyTruthy] at hmem
    simp at hmem
    by_cases hcond : ¬_strip_tag_version_scan t [v] = "" ∧
        ¬_strip_tag_version_scan t [v] = "latest"
    · rw [if_pos hcond] at hmem
      simp at hmem
      exact hcond.2 (join_eq_append_latest hmem.symm)
    · rw [if_neg hcond] at hmem
      simp at hmem
      exact append_latest_ne v hmem

/-- C2 counterexample: with version `"1"` and latest inclusion enabled,
the input tag `"1-1-latest"` strips to the remainder `"1-latest"`, which
is then appended as the floating tag — an output of the literal form
`"<version>-latest"`, contradicting the claim that such outputs are
impossible. -/
theorem latest_form_reachable :
    (VersionTagger.init ["1"] none true).generate_tags (some "1-1-latest") =
        ["1-1-latest", "1-latest"] ∧
      "1" ++ "-latest" ∈ (VersionTagger.init ["1"] none true).generate_tags
        (some "1-1-latest") :=
  ⟨by decide, by decide⟩

/-! ## Claim C3: semantic-version expansion boundary cases -/

/-- C3: `generate_semver_versions` expands `"5.4.1"` to three
precisions; drops a trailing literal `"0"` unless `zero` is set; always
keeps a sole `"0"` entry; and raises `InvalidPrecisionError` when the
requested minimum precision exceeds the number of generated prefixes. -/
theorem semver_expansion_boundaries :
    generate_semver_versions "5.4.1" = some (Except.ok ["5.4.1", "5.4", "5"]) ∧
      generate_semver_versions "0.6.11" = some (Except.ok ["0.6.11", "0.6"]) ∧
      generate_semver_versions "0.6.11" 1 true = some (Except.ok ["0.6.11", "0.6", "0"]) ∧
      generate_semver_versions "0" = some (Except.ok ["0"]) ∧
      generate_semver_versions "3.5.3" 4 = some (Except.error "InvalidPrecisionError") :=
  ⟨rfl, rfl, rfl, rfl, rfl⟩

/-! ## Claim C4: semver precision truncation -/

theorem gsv_eq_of_subs {v : String} {subs : List String}
    (h : sub_versions_of v = some subs) (p : Nat) (zero : Bool) :
    generate_semver_versions v p zero =
      (if decide (subs.length < p) = true then some (Except.error "InvalidPrecisionError")
      else
        let sv1 := if decide (1 < p) = true then subs.take (subs.length - (p - 1)) else subs
        let sv2 :=
          if !zero && decide (1 < sv1.length) && (sv1.getLast? == some "0") then sv1.dropLast
          else sv1
        some (Except.ok sv2)) := by
  unfold generate_semver_versions
  rw [h]

/-- C4, amended: the truncation keeps the prefixes with at least
`precision` parts, not at least `precision` list entries.  When the
stripping loop terminates with `subs` prefixes and `1 ≤ precision ≤
subs.length`, the result is `Except.ok r` with `r.length = subs.length -
precision + 1`, possibly one less when the trailing `"0"` entry is
dropped, and always nonempty; `precision > subs.length` raises
`InvalidPrecisionError`.  (The original claim that the result has at
least `precision` entries is false — see the counterexample.) -/
theorem semver_precision_truncation (v : String) (p : Nat) (zero : Bool) (subs : List String)
    (hsub : sub_versions_of v = some subs) (hp : 1 ≤ p) :
    (p ≤ subs.length →
        ∃ r, generate_semver_versions v p zero = some (Except.ok r) ∧
          (r.length = subs.length - p + 1 ∨ r.length + 1 = subs.length - p + 1) ∧
          1 ≤ r.length) ∧
      (subs.length < p →
        generate_semver_versions v p zero = some (Except.error "InvalidPrecisionError")) := by
  constructor
  · intro hple
    rw [gsv_eq_of_subs hsub p zero]
    have hnl : ¬subs.length < p := by omega
    rw [if_neg (by simpa using hnl)]
    simp only []
    by_cases h1p : 1 < p
    · have hsv1 : (if decide (1 < p) = true then subs.take (subs.length - (p - 1)) else subs)
          = subs.take (subs.length - (p - 1)) := by
        rw [if_pos (by simpa using h1p)]
      rw [hsv1]
      have hlen1 : (subs.take (subs.length - (p - 1))).length = subs.length - p + 1 := by
        rw [List.length_take]
        omega
      by_cases hdrop : (!zero && decide (1 < (subs.take (subs.length - (p - 1))).length) &&
          ((subs.take (subs.length - (p - 1))).getLast? == some "0")) = true
      · rw [if_pos hdrop]
        have h2 : 1 < (subs.take (subs.length - (p - 1))).length := by
          simp only [Bool.and_eq_true, decide_eq_true_eq] at hdrop
          exact hdrop.1.2
        refine ⟨_, rfl, Or.inr ?_, ?_⟩
        · rw [List.length_dropLast, hlen1]
          omega
        · rw [List.length_dropLast]
          omega
      · rw [if_neg hdrop]
        refine ⟨_, rfl, Or.inl (by rw [hlen1]), ?_⟩
        rw [hlen1]
        omega
    · have hp1 : p = 1 := by omega
      subst hp1
      have hsv1 : (if decide (1 < 1) = true then subs.take (subs.length - (1 - 1)) else subs)
          = subs := by
        rw [if_neg (by simp)]
      rw [hsv1]
      by_cases hdrop : (!zero && decide (1 < subs.length) && (subs.getLast? == some "0")) = true
      · rw [if_pos hdrop]
        have h2 : 1 < subs.length := by
          simp only [Bool.and_eq_true, decide_eq_true_eq] at hdrop
          exact hdrop.1.2
        refine ⟨_, rfl, Or.inr ?_, ?_⟩
        · rw [List.length_dropLast]
        · rw [List.length_dropLast]
          omega
      · rw [if_neg hdrop]
        exact ⟨_, rfl, Or.inl (by omega), by omega⟩
  · intro hlt
    rw [gsv_eq_of_subs hsub p zero]
    rw [if_pos (by simpa using hlt)]

theorem semver_precision_truncation_witness :
    sub_versions_of "5.4.1" = some ["5.4.1", "5.4", "5"] ∧ 1 ≤ 2 ∧
      ((2 ≤ (["5.4.1", "5.4", "5"] : List String).length →
          ∃ r, generate_semver_versions "5.4.1" 2 false = some (Except.ok r) ∧
            (r.length = (["5.4.1", "5.4", "5"] : List String).length - 2 + 1 ∨
              r.length + 1 = (["5.4.1", "5.4", "5"] : List String).length - 2 + 1) ∧
            1 ≤ r.length) ∧
        ((["5.4.1", "5.4", "5"] : List String).length < 2 →
          generate_semver_versions "5.4.1" 2 false =
            some (Except.error "InvalidPrecisionError"))) :=
  ⟨rfl, by decide,
    semver_precision_truncation "5.4.1" 2 false ["5.4.1", "5.4", "5"] rfl (by decide)⟩

/-- C4 counterexample: for version `"5.4"` there are two naturally
generated prefixes, so `minPrecision = 2` does not exceed them, yet the
returned list has a single entry — fewer than `minPrecision`. -/
theorem semver_truncation_counterexample :
    sub_versions_of "5.4" = some ["5.4", "5"] ∧
      generate_semver_versions "5.4" 2 = some (Except.ok ["5.4"]) ∧
      (["5.4"] : List String).length < 2 :=
  ⟨rfl, rfl, by decide⟩

/-! ## Claim C9: password redaction (modelled from the spec) -/

theorem joinSpaces_contains_of_mem {x : String} :
    ∀ {l : List String}, x ∈ l → strContains x (joinSpaces l)
  | [], h => absurd h (List.not_mem_nil x)
  | [a], h => by
    rcases List.mem_singleton.mp h with rfl
    exact ⟨[], [], by simp [joinSpaces]⟩
  | a :: b :: rest, h => by
    rcases List.mem_cons.mp h with rfl | hbr
    · refine ⟨[], (" " ++ joinSpaces (b :: rest)).data, ?_⟩
      simp [joinSpaces, data_append_eq]
    · obtain ⟨u, w, hu⟩ := joinSpaces_contains_of_mem hbr
      refine ⟨(a ++ " ").data ++ u, w, ?_⟩
      show (joinSpaces (a :: b :: rest)).data = _
      rw [joinSpaces]
      simp [data_append_eq, hu]

/-- C9, amended: every dry-run rendering and every error-path rendering
of a login invocation contains the fixed placeholder `<password>`, and
the renderings are independent of the password (the same for every
password), so the real password appears in a rendering only when it
coincides with password-independent content.  (The original claim that
the password NEVER appears as a substring is false when the password
equals, for example, the username — see the counterexample.) -/
theorem login_rendering_redacted (executable username password other : String)
    (registry : Option String) (exitCode : Nat) :
    strContains "<password>" (login_dry_run_line executable username password registry) ∧
      strContains "<password>"
        (login_error_repr executable username password registry exitCode) ∧
      login_dry_run_line executable username password registry =
        login_dry_run_line executable username other registry ∧
      login_error_repr executable username password registry exitCode =
        login_error_repr executable username other registry exitCode := by
  have hmem : "<password>" ∈ login_obfuscated_args executable username registry := by
    cases registry <;> simp [login_obfuscated_args]
  have hline := joinSpaces_contains_of_mem hmem
  refine ⟨hline, ?_, rfl, rfl⟩
  obtain ⟨u, w, hu⟩ := hline
  refine ⟨("Command " : String).data ++ u,
    w ++ (" returned non-zero exit status " ++ toString exitCode).data, ?_⟩
  unfold login_error_repr login_dry_run_line
  rw [data_append_eq, data_append_eq, data_append_eq, hu]
  simp [data_append_eq]

/-- C9 counterexample: when the password coincides with the username
(here both `"pa55word"`), the dry-run rendering does contain the real
password as a substring even though the placeholder was substituted. -/
theorem login_password_leak_counterexample :
    strContains "pa55word" (login_dry_run_line "docker" "pa55word" "pa55word" none) :=
  ⟨("docker login --username " : String).data, (" --password <password>" : String).data,
    by decide⟩
